import Mathlib

/-!
Verification of the localization-resolution and caching core of the
auth0-international-email repository.

Part 1 models the localization resolver:
* the strict single-key resolver of `src/scripts/localizeMessage.ts`
  (`messageByLanguage`, `createLanguageCondition`, `localizeMessage`), and
* the lenient catalog-map resolver of
  `src/generators/LiquidGenerator.ts` (`generateLiquidConditions`).

Modelling conventions:
* A language catalog (the parsed `<language>.json` object, or the
  `entries` map of a `TranslationCatalog` projected to each entry's
  `value` field) is a function `String → Option String`.
* The dynamic `require` of `localizeMessage.ts` is modelled by a resource
  map `String → Option Catalog`; a missing resource is the
  `LanguageNotFound` failure that `require` raises as "module not found".
* JavaScript truthiness on a string-or-undefined value (`!message`,
  `x || d`, `if (primaryLanguage)`) is modelled explicitly: `undefined`
  and the empty string are the only falsy values involved.
* JavaScript exceptions become `Except LocError`.
* Destructuring `const [first, ...rest] = languages` on an empty array
  yields `first = undefined`, which the template literal
  `` `${root}/languages/${language}.json` `` renders as the text
  "undefined"; `List.headD languages "undefined"` reproduces this.
-/

/-- A translation catalog: key → translated value (absent key = `undefined`). -/
abbrev Catalog := String → Option String

/-- Failure taxonomy of the resolver (spec section 7). `TranslationMissing`
is the `Message not found for key ... when using language ...` throw;
`LanguageNotFound` is a failed resource load. -/
inductive LocError where
  | TranslationMissing (key language : String)
  | LanguageNotFound (language : String)
deriving DecidableEq, Repr

/-- JS truthiness test used by `if (!message)`: a string-or-undefined value
is falsy exactly when it is `undefined` or the empty string. -/
def jsFalsy : Option String → Bool
  | none => true
  | some s => s = ""

/-- `loadLanguageJson` of `localizeMessage.ts`: `require` of the language's
JSON resource, failing when the resource does not exist. -/
def loadLanguageJson (resources : String → Option Catalog) (language : String) :
    Except LocError Catalog :=
  match resources language with
  | some json => .ok json
  | none => .error (.LanguageNotFound language)

/-- `messageByLanguage` of `localizeMessage.ts` (lines 7-13): look the key up
in the loaded catalog and throw when the result is falsy. -/
def messageByLanguage (messageKey : String) (languageJson : Catalog)
    (language : String) : Except LocError String :=
  let message := languageJson messageKey
  if jsFalsy message then
    .error (.TranslationMissing messageKey language)
  else
    .ok (message.getD "")

/-- The three branch positions of `createLanguageCondition`. -/
inductive ConditionType where
  | FIRST
  | LAST
  | MIDDLE
deriving DecidableEq, Repr

/-- The `firstLanguageCondition` template string of `localizeMessage.ts`:
an opening `if` branch. -/
def firstLanguageCondition (language message : String) : String :=
  "\x7b% if user.user_metadata.language == \x27" ++ language ++ "\x27 %\x7d" ++ message

/-- The `defaultLanguageCondition` template string of `localizeMessage.ts`:
the closing `else` branch followed by the `endif` terminator. -/
def defaultLanguageCondition (message : String) : String :=
  "\x7b% else %\x7d" ++ message ++ "\x7b% endif %\x7d"

/-- The `middleLanguageCondition` template string of `localizeMessage.ts`:
an `elsif` branch. -/
def middleLanguageCondition (language message : String) : String :=
  "\x7b% elsif user.user_metadata.language == \x27" ++ language ++ "\x27 %\x7d" ++ message

/-- `createLanguageCondition` of `localizeMessage.ts` (lines 21-36): load the
language's catalog, resolve the message, and pick the branch shape. -/
def createLanguageCondition (resources : String → Option Catalog)
    (messageKey language : String) (conditionType : ConditionType) :
    Except LocError String := do
  let languageJson ← loadLanguageJson resources language
  let message ← messageByLanguage messageKey languageJson language
  match conditionType with
  | .FIRST => return firstLanguageCondition language message
  | .LAST => return defaultLanguageCondition message
  | .MIDDLE => return middleLanguageCondition language message

/-- Left-to-right effectful map over a list, stopping at the first thrown
exception: the behaviour of `Array.prototype.map` when the callback throws. -/
def mapExcept (f : α → Except ε β) : List α → Except ε (List β)
  | [] => .ok []
  | a :: as => do
    let b ← f a
    let bs ← mapExcept f as
    return b :: bs

/-- `localizeMessage` of `localizeMessage.ts` (lines 38-47), with the
module-level `languages` config and the `require`-backed resource store made
explicit parameters. On an empty language list the destructured first
language is `undefined`, rendered as the literal "undefined". -/
def localizeMessage (resources : String → Option Catalog)
    (languages : List String) (messageKey : String) : Except LocError String := do
  let firstLanguage := languages.headD "undefined"
  let restLanguages := languages.tail
  let firstCondition ← createLanguageCondition resources messageKey firstLanguage .FIRST
  let middleConditions ← mapExcept
    (fun language => createLanguageCondition resources messageKey language .MIDDLE)
    restLanguages
  let defaultCondition ← createLanguageCondition resources messageKey firstLanguage .LAST
  return String.intercalate "\n" (firstCondition :: (middleConditions ++ [defaultCondition]))

/-- JS `x || d` on a string-or-undefined `x`: `undefined` and `""` fall back
to the default. This is `translation?.value || placeholder` in
`generateLiquidConditions`. -/
def jsOrString (o : Option String) (d : String) : String :=
  match o with
  | some v => if v = "" then d else v
  | none => d

/-- The `[MISSING: <key>]` placeholder of the lenient resolver. -/
def missingValue (key : String) : String := "[MISSING: " ++ key ++ "]"

/-- `i18nContext.catalogs.get(language)`: first-match lookup in the
insertion-ordered catalog map. -/
def catalogLookup (catalogs : List (String × Catalog)) (language : String) :
    Option Catalog :=
  (catalogs.find? (fun kv => kv.1 == language)).map (fun kv => kv.2)

/-- One branch body of `generateLiquidConditions`:
`catalog?.entries.get(key)?.value || "[MISSING: key]"`. -/
def branchValue (catalogs : List (String × Catalog)) (language key : String) : String :=
  jsOrString ((catalogLookup catalogs language).bind (fun c => c key)) (missingValue key)

/-- `generateLiquidConditions` of `LiquidGenerator.ts` (lines 152-183): the
lenient catalog-map resolver. `catalogs` is the insertion-ordered
language → catalog map; the language list is its key list. The primary
language guards (`if (primaryLanguage)`) use JS string truthiness. -/
def generateLiquidConditions (translationKey : String)
    (catalogs : List (String × Catalog)) : String :=
  let languages := catalogs.map (fun kv => kv.1)
  let primaryLanguage := languages.head?
  let secondaryLanguages := languages.tail
  let firstConds : List String :=
    match primaryLanguage with
    | some p =>
        if p = "" then []
        else [firstLanguageCondition p (branchValue catalogs p translationKey)]
    | none => []
  let middleConds : List String := secondaryLanguages.map
    (fun language => middleLanguageCondition language (branchValue catalogs language translationKey))
  let lastConds : List String :=
    match primaryLanguage with
    | some p =>
        if p = "" then []
        else [defaultLanguageCondition (branchValue catalogs p translationKey)]
    | none => []
  String.intercalate "\n" (firstConds ++ middleConds ++ lastConds)

section ResolverSanity

/-- The fixture catalogs of the repository's own test
(`localizeMessage.test.ts`): fr-FR and en-US. -/
def frCatalog : Catalog := fun k =>
  if k = "welcome.subject" then some "Bienvenue"
  else if k = "welcome.hello" then some "Bonjour"
  else if k = "only.french" then some "Seulement"
  else none

def enCatalog : Catalog := fun k =>
  if k = "welcome.subject" then some "Welcome"
  else if k = "welcome.hello" then some "Hello"
  else none

def testResources : String → Option Catalog := fun l =>
  if l = "fr-FR" then some frCatalog
  else if l = "en-US" then some enCatalog
  else none

example :
    localizeMessage testResources ["fr-FR", "en-US"] "welcome.subject" =
      .ok ("\x7b% if user.user_metadata.language == \x27fr-FR\x27 %\x7dBienvenue\n" ++
           "\x7b% elsif user.user_metadata.language == \x27en-US\x27 %\x7dWelcome\n" ++
           "\x7b% else %\x7dBienvenue\x7b% endif %\x7d") := by
  rfl

example :
    localizeMessage testResources ["fr-FR", "en-US"] "non.existent.key" =
      .error (.TranslationMissing "non.existent.key" "fr-FR") := by
  rfl

example :
    generateLiquidConditions "welcome.subject" [("fr-FR", frCatalog), ("en-US", enCatalog)] =
      "\x7b% if user.user_metadata.language == \x27fr-FR\x27 %\x7dBienvenue\n" ++
      "\x7b% elsif user.user_metadata.language == \x27en-US\x27 %\x7dWelcome\n" ++
      "\x7b% else %\x7dBienvenue\x7b% endif %\x7d" := by
  decide

end ResolverSanity

section ExceptLemmas

@[simp] theorem exceptBindOk (a : α) (f : α → Except ε β) :
    (Except.ok a >>= f) = f a := rfl

@[simp] theorem exceptBindError (e : ε) (f : α → Except ε β) :
    ((Except.error e : Except ε α) >>= f) = Except.error e := rfl

@[simp] theorem exceptPureEq (b : β) : (pure b : Except ε β) = Except.ok b := rfl

/-- When every element maps to a success, `mapExcept` succeeds with the
pointwise results. -/
theorem mapExcept_ok (f : α → Except ε β) (g : α → β) (l : List α)
    (h : ∀ a ∈ l, f a = .ok (g a)) : mapExcept f l = .ok (l.map g) := by
  induction l with
  | nil => rfl
  | cons a as ih =>
    have ha := h a (by simp)
    have has : ∀ x ∈ as, f x = .ok (g x) := fun x hx => h x (by simp [hx])
    simp [mapExcept, ha, ih has]

/-- `mapExcept` stops at the first failing element: all elements before it
succeed, it fails, and the whole traversal fails with that error. -/
theorem mapExcept_error (f : α → Except ε β) (pre : List α) (x : α) (post : List α)
    (e : ε) (hpre : ∀ a ∈ pre, ∃ b, f a = .ok b) (hx : f x = .error e) :
    mapExcept f (pre ++ x :: post) = .error e := by
  induction pre with
  | nil => simp [mapExcept, hx]
  | cons a as ih =>
    obtain ⟨b, hb⟩ := hpre a (by simp)
    have has : ∀ y ∈ as, ∃ b, f y = .ok b := fun y hy => hpre y (by simp [hy])
    simp [mapExcept, hb, ih has]

end ExceptLemmas

section StrictResolver

/-- When the language's resource loads and the key's value is present and
non-empty, `createLanguageCondition` yields the branch for the requested
position. -/
theorem createLanguageCondition_ok (resources : String → Option Catalog)
    (K lang m : String) (cat : Catalog)
    (hres : resources lang = some cat) (hK : cat K = some m) (hm : m ≠ "")
    (ct : ConditionType) :
    createLanguageCondition resources K lang ct =
      .ok (match ct with
           | .FIRST => firstLanguageCondition lang m
           | .LAST => defaultLanguageCondition m
           | .MIDDLE => middleLanguageCondition lang m) := by
  simp [createLanguageCondition, loadLanguageJson, hres, messageByLanguage, jsFalsy, hK, hm]
  cases ct <;> rfl

/-- When the language's resource loads but the key's value is missing or
empty (JS-falsy), `createLanguageCondition` throws `TranslationMissing`
whatever the branch position. -/
theorem createLanguageCondition_missing (resources : String → Option Catalog)
    (K lang : String) (cat : Catalog)
    (hres : resources lang = some cat) (hK : jsFalsy (cat K) = true)
    (ct : ConditionType) :
    createLanguageCondition resources K lang ct =
      .error (.TranslationMissing K lang) := by
  simp [createLanguageCondition, loadLanguageJson, hres, messageByLanguage, hK]

/-- A JS-truthy lookup is a non-empty `some`. -/
theorem jsFalsy_eq_false (o : Option String) (h : jsFalsy o = false) :
    ∃ m, o = some m ∧ m ≠ "" := by
  cases o with
  | none => simp [jsFalsy] at h
  | some s =>
    refine ⟨s, rfl, ?_⟩
    simpa [jsFalsy] using h

/-- C1: for a non-empty language list whose every language resolves the key
to a non-empty value, `localizeMessage` succeeds and produces exactly
`|L| + 1` newline-joined branches: the `if` branch for `L[0]` with `L[0]`'s
value, one `elsif` branch per further language with that language's value,
and the closing `else` branch (with the `endif` terminator) whose body is
again `L[0]`'s value, byte-equal to the `if` body. -/
theorem localizeMessage_branch_structure (resources : String → Option Catalog)
    (K l : String) (ls : List String) (v : String → String)
    (h : ∀ lang ∈ l :: ls, ∃ cat, resources lang = some cat ∧
          cat K = some (v lang) ∧ v lang ≠ "") :
    localizeMessage resources (l :: ls) K =
      .ok (String.intercalate "\n"
        (firstLanguageCondition l (v l) ::
          (ls.map (fun lang => middleLanguageCondition lang (v lang)) ++
            [defaultLanguageCondition (v l)]))) ∧
    (firstLanguageCondition l (v l) ::
      (ls.map (fun lang => middleLanguageCondition lang (v lang)) ++
        [defaultLanguageCondition (v l)])).length = (l :: ls).length + 1 := by
  constructor
  · obtain ⟨cl, hcl, hclK, hclne⟩ := h l (by simp)
    have hfirst := createLanguageCondition_ok resources K l (v l) cl hcl hclK hclne .FIRST
    have hlast := createLanguageCondition_ok resources K l (v l) cl hcl hclK hclne .LAST
    have hmid : mapExcept
        (fun language => createLanguageCondition resources K language .MIDDLE) ls =
        .ok (ls.map (fun lang => middleLanguageCondition lang (v lang))) := by
      refine mapExcept_ok _ _ _ (fun lang hlang => ?_)
      obtain ⟨cat, hres, hK, hne⟩ := h lang (by simp [hlang])
      exact createLanguageCondition_ok resources K lang (v lang) cat hres hK hne .MIDDLE
    simp [localizeMessage, hfirst, hlast, hmid]
  · simp

/-- C2: in strict mode, if every language's resource loads but the key is
missing (JS-falsy) in the catalog of some configured language, then
`localizeMessage` aborts with `TranslationMissing` for the first such
language in priority order: no placeholder, no partial string. -/
theorem localizeMessage_fail_fast (resources : String → Option Catalog)
    (K : String) (pre post : List String) (lmiss : String)
    (hload : ∀ lang ∈ pre ++ lmiss :: post, ∃ cat, resources lang = some cat)
    (hpre : ∀ lang ∈ pre, ∀ cat, resources lang = some cat → jsFalsy (cat K) = false)
    (hmiss : ∀ cat, resources lmiss = some cat → jsFalsy (cat K) = true) :
    localizeMessage resources (pre ++ lmiss :: post) K =
      .error (.TranslationMissing K lmiss) := by
  obtain ⟨cmiss, hcmiss⟩ := hload lmiss (by simp)
  have hmissK := hmiss cmiss hcmiss
  cases pre with
  | nil =>
    have hfirst := createLanguageCondition_missing resources K lmiss cmiss hcmiss hmissK .FIRST
    simp [localizeMessage, hfirst]
  | cons p pre' =>
    obtain ⟨cp, hcp⟩ := hload p (by simp)
    obtain ⟨mp, hmp, hmpne⟩ := jsFalsy_eq_false (cp K) (hpre p (by simp) cp hcp)
    have hfirst := createLanguageCondition_ok resources K p mp cp hcp hmp hmpne .FIRST
    have hmid : mapExcept
        (fun language => createLanguageCondition resources K language .MIDDLE)
        (pre' ++ lmiss :: post) = .error (.TranslationMissing K lmiss) := by
      refine mapExcept_error _ pre' lmiss post _ (fun lang hlang => ?_)
        (createLanguageCondition_missing resources K lmiss cmiss hcmiss hmissK .MIDDLE)
      obtain ⟨cat, hcat⟩ := hload lang (by simp [hlang])
      obtain ⟨m, hm, hmne⟩ := jsFalsy_eq_false (cat K)
        (hpre lang (by simp [hlang]) cat hcat)
      exact ⟨_, createLanguageCondition_ok resources K lang m cat hcat hm hmne .MIDDLE⟩
    simp [localizeMessage, hfirst, hmid]

end StrictResolver

section LenientResolver

/-- With duplicate-free language keys, looking a language up in the catalog
map finds exactly its catalog. -/
theorem catalogLookup_of_mem (catalogs : List (String × Catalog))
    (lang : String) (cat : Catalog)
    (hnd : (catalogs.map (fun kv => kv.1)).Nodup) (hmem : (lang, cat) ∈ catalogs) :
    catalogLookup catalogs lang = some cat := by
  induction catalogs with
  | nil => cases hmem
  | cons hd tl ih =>
    rcases List.mem_cons.mp hmem with heq | htl
    · subst heq
      simp [catalogLookup, List.find?_cons_of_pos]
    · have hne : hd.1 ≠ lang := by
        intro hcontra
        have hmemfst : lang ∈ tl.map (fun kv => kv.1) :=
          List.mem_map.mpr ⟨(lang, cat), htl, rfl⟩
        rw [List.map_cons, List.nodup_cons] at hnd
        exact hnd.1 (hcontra ▸ hmemfst)
      have hstep : catalogLookup (hd :: tl) lang = catalogLookup tl lang := by
        simp [catalogLookup, List.find?_cons_of_neg, hne]
      rw [hstep]
      exact ih (by rw [List.map_cons, List.nodup_cons] at hnd; exact hnd.2) htl

/-- C3: the lenient catalog-map resolver is total (it never throws): on a
non-empty catalog map with duplicate-free, truthy language keys it emits the
full branch list in order, each branch's body being the language's value or
the `[MISSING: key]` placeholder; in particular every language whose catalog
lacks the key gets the placeholder body, while the remaining branches are
still produced in their order. -/
theorem generateLiquidConditions_lenient (K l : String) (c : Catalog)
    (rest : List (String × Catalog))
    (hnd : (((l, c) :: rest).map (fun kv => kv.1)).Nodup) (hl : l ≠ "") :
    generateLiquidConditions K ((l, c) :: rest) =
      String.intercalate "\n"
        (firstLanguageCondition l (jsOrString (c K) (missingValue K)) ::
          (rest.map (fun kv =>
            middleLanguageCondition kv.1 (jsOrString (kv.2 K) (missingValue K))) ++
            [defaultLanguageCondition (jsOrString (c K) (missingValue K))])) ∧
    ∀ lang cat, (lang, cat) ∈ (l, c) :: rest → cat K = none →
      branchValue ((l, c) :: rest) lang K = missingValue K := by
  have hlookup : ∀ lang cat, (lang, cat) ∈ (l, c) :: rest →
      catalogLookup ((l, c) :: rest) lang = some cat :=
    fun lang cat hmem => catalogLookup_of_mem _ lang cat hnd hmem
  constructor
  · have hbvl : branchValue ((l, c) :: rest) l K = jsOrString (c K) (missingValue K) := by
      simp [branchValue, hlookup l c (by simp)]
    have hmids : (rest.map (fun kv => kv.1)).map
        (fun language => middleLanguageCondition language
          (branchValue ((l, c) :: rest) language K)) =
        rest.map (fun kv =>
          middleLanguageCondition kv.1 (jsOrString (kv.2 K) (missingValue K))) := by
      rw [List.map_map]
      refine List.map_congr_left (fun kv hkv => ?_)
      have : branchValue ((l, c) :: rest) kv.1 K =
          jsOrString (kv.2 K) (missingValue K) := by
        simp [branchValue, hlookup kv.1 kv.2 (by simp [hkv])]
      simp [Function.comp, this]
    simp only [generateLiquidConditions, List.map_cons, List.head?_cons, List.tail_cons]
    rw [hbvl, hmids]
    simp [hl]
  · intro lang cat hmem hK
    simp [branchValue, hlookup lang cat hmem, hK, jsOrString]

/-- C4 counterexample: resolving a key against an empty language list does
not fail with `ConfigurationError`. The lenient resolver returns the empty
string, and the strict resolver fails with a resource-not-found error for
the language literal "undefined" — a different error. -/
theorem emptyLanguageList_counterexample :
    generateLiquidConditions "welcome.subject" [] = "" ∧
    localizeMessage testResources [] "welcome.subject" =
      .error (.LanguageNotFound "undefined") := by
  constructor <;> rfl

/-- C4 amended: resolution against an empty language list never raises a
`ConfigurationError`: the lenient catalog-map resolver returns the empty
string, and the strict resolver (whose destructured first language is the
literal "undefined") fails with a language-resource-not-found error whenever
no resource named "undefined" exists. -/
theorem emptyLanguageList_behaviour (K : String)
    (resources : String → Option Catalog) (h : resources "undefined" = none) :
    generateLiquidConditions K [] = "" ∧
    localizeMessage resources [] K = .error (.LanguageNotFound "undefined") := by
  refine ⟨rfl, ?_⟩
  simp [localizeMessage, createLanguageCondition, loadLanguageJson, h]

theorem emptyLanguageList_behaviour_witness :
    generateLiquidConditions "a.b" [] = "" ∧
    localizeMessage (fun _ => none) [] "a.b" = .error (.LanguageNotFound "undefined") :=
  emptyLanguageList_behaviour "a.b" (fun _ => none) rfl

/-- C10: a key present with the empty-string value is indistinguishable from
an absent key in both resolvers: strict resolution throws the same
`TranslationMissing` error either way, the lenient branch body is the
`[MISSING: key]` placeholder either way, and the lenient resolver's whole
output is unchanged when the empty-valued key is removed from the catalog. -/
theorem emptyTranslation_as_absent (K lang : String) (cat : Catalog)
    (h : cat K = some "") :
    messageByLanguage K cat lang = .error (.TranslationMissing K lang) ∧
    messageByLanguage K (fun k => if k = K then none else cat k) lang =
      .error (.TranslationMissing K lang) ∧
    branchValue [(lang, cat)] lang K = missingValue K ∧
    generateLiquidConditions K [(lang, cat)] =
      generateLiquidConditions K [(lang, fun k => if k = K then none else cat k)] := by
  refine ⟨?_, ?_, ?_, ?_⟩
  · simp [messageByLanguage, h, jsFalsy]
  · simp [messageByLanguage, jsFalsy]
  · simp [branchValue, catalogLookup, h, jsOrString]
  · simp [generateLiquidConditions, branchValue, catalogLookup, h, jsOrString]

theorem emptyTranslation_as_absent_witness :
    messageByLanguage "welcome.empty" (fun k => if k = "welcome.empty" then some "" else none)
      "fr-FR" = .error (.TranslationMissing "welcome.empty" "fr-FR") ∧
    messageByLanguage "welcome.empty"
      (fun k => if k = "welcome.empty" then none
                else (fun k' => if k' = "welcome.empty" then some "" else none) k)
      "fr-FR" = .error (.TranslationMissing "welcome.empty" "fr-FR") ∧
    branchValue [("fr-FR", fun k => if k = "welcome.empty" then some "" else none)]
      "fr-FR" "welcome.empty" = missingValue "welcome.empty" ∧
    generateLiquidConditions "welcome.empty"
      [("fr-FR", fun k => if k = "welcome.empty" then some "" else none)] =
      generateLiquidConditions "welcome.empty"
        [("fr-FR", fun k => if k = "welcome.empty" then none
            else (fun k' => if k' = "welcome.empty" then some "" else none) k)] :=
  emptyTranslation_as_absent "welcome.empty" "fr-FR"
    (fun k => if k = "welcome.empty" then some "" else none) (by simp)

/-- The per-language translated values used by the C1 witness. -/
def witnessValues : String → String :=
  fun lang => if lang = "fr-FR" then "Bienvenue" else "Welcome"

theorem localizeMessage_branch_structure_witness :
    localizeMessage testResources ["fr-FR", "en-US"] "welcome.subject" =
      .ok (String.intercalate "\n"
        (firstLanguageCondition "fr-FR" (witnessValues "fr-FR") ::
          (["en-US"].map (fun lang => middleLanguageCondition lang (witnessValues lang)) ++
            [defaultLanguageCondition (witnessValues "fr-FR")]))) ∧
    (firstLanguageCondition "fr-FR" (witnessValues "fr-FR") ::
      (["en-US"].map (fun lang => middleLanguageCondition lang (witnessValues lang)) ++
        [defaultLanguageCondition (witnessValues "fr-FR")])).length =
      (["fr-FR", "en-US"] : List String).length + 1 :=
  localizeMessage_branch_structure testResources "welcome.subject" "fr-FR" ["en-US"]
    witnessValues (by
      intro lang hlang
      rcases List.mem_cons.mp hlang with rfl | hlang'
      · exact ⟨frCatalog, rfl, rfl, by decide⟩
      · rcases List.mem_singleton.mp hlang' with rfl
        exact ⟨enCatalog, rfl, rfl, by decide⟩)

theorem localizeMessage_fail_fast_witness :
    localizeMessage testResources (["fr-FR"] ++ "en-US" :: []) "only.french" =
      .error (.TranslationMissing "only.french" "en-US") :=
  localizeMessage_fail_fast testResources "only.french" ["fr-FR"] [] "en-US"
    (by
      intro lang hlang
      rcases List.mem_cons.mp hlang with rfl | hlang'
      · exact ⟨frCatalog, rfl⟩
      · rcases List.mem_singleton.mp hlang' with rfl
        exact ⟨enCatalog, rfl⟩)
    (by
      intro lang hlang cat hcat
      rcases List.mem_singleton.mp hlang with rfl
      simp only [testResources, if_pos rfl] at hcat
      cases hcat
      rfl)
    (by
      intro cat hcat
      simp [testResources] at hcat
      subst hcat
      rfl)

theorem generateLiquidConditions_lenient_witness :
    generateLiquidConditions "non.existent.key" [("fr-FR", frCatalog), ("en-US", enCatalog)] =
      String.intercalate "\n"
        (firstLanguageCondition "fr-FR"
            (jsOrString (frCatalog "non.existent.key") (missingValue "non.existent.key")) ::
          ([("en-US", enCatalog)].map (fun kv =>
            middleLanguageCondition kv.1
              (jsOrString (kv.2 "non.existent.key") (missingValue "non.existent.key"))) ++
            [defaultLanguageCondition
              (jsOrString (frCatalog "non.existent.key") (missingValue "non.existent.key"))])) ∧
    ∀ lang cat, (lang, cat) ∈ ("fr-FR", frCatalog) :: [("en-US", enCatalog)] →
      cat "non.existent.key" = none →
      branchValue (("fr-FR", frCatalog) :: [("en-US", enCatalog)]) lang "non.existent.key" =
        missingValue "non.existent.key" :=
  generateLiquidConditions_lenient "non.existent.key" "fr-FR" frCatalog
    [("en-US", enCatalog)] (by simp) (by decide)

end LenientResolver

/-!
Part 2 models the cache subsystem of `src/core/services/CacheService.ts`.

Modelling conventions:
* Cached payloads are represented by their JSON serialization, a `String`;
  `calculateSize` is `JSON.stringify(data).length * 2` applied to it.
* The JS `Map` is an insertion-ordered association list: `Map.set` on an
  existing key updates the value in place keeping the key's position,
  otherwise it appends; iteration follows this order.
* The disk tier (JSON files under the cache directory) is a second
  association list in the state; the filesystem I/O itself (and its
  logged-and-absorbed failures) is not modelled.
* Each public operation takes the value of `Date.now()` as an explicit
  `now : Int` (epoch milliseconds), used for every `Date.now()` call made
  during that operation.
* The `while` eviction loop of `setMemoryEntry` is modelled with fuel equal
  to the number of entries: each successful eviction removes one entry, so
  this fuel never runs out before the loop's own condition stops it. If
  `evictLeastRecentlyUsed` selects no key (possible only when no entry has
  a timestamp strictly below `now`) the source would spin forever; the
  model stops there, and the theorems assume timestamps lie in the past.
-/

namespace CacheService

/-- `CacheEntry<T>` of `CacheService.ts`, with `data` as its serialization. -/
structure CacheEntry where
  data : String
  timestamp : Int
  ttl : Int
  size : Int
deriving DecidableEq, Repr

/-- An insertion-ordered JS `Map<string, CacheEntry>`. -/
abbrev CacheMap := List (String × CacheEntry)

/-- `Map.get`. -/
def mapGet (m : CacheMap) (k : String) : Option CacheEntry :=
  (m.find? (fun kv => kv.1 == k)).map (fun kv => kv.2)

/-- `Map.set`: replace in place when the key exists, else append. -/
def mapSet (m : CacheMap) (k : String) (e : CacheEntry) : CacheMap :=
  if (m.find? (fun kv => kv.1 == k)).isSome then
    m.map (fun kv => if kv.1 == k then (k, e) else kv)
  else
    m ++ [(k, e)]

/-- `Map.delete`. -/
def mapDelete (m : CacheMap) (k : String) : CacheMap :=
  m.filter (fun kv => !(kv.1 == k))

/-- The three cache strategies of `CacheOptions`. -/
inductive Strategy where
  | memory
  | disk
  | hybrid
deriving DecidableEq, Repr

/-- `Required<CacheOptions>`: ttl in seconds, maxSize in MB. -/
structure CacheOptions where
  ttl : Int
  maxSize : Nat
  strategy : Strategy
deriving Repr

/-- The mutable state of a `CacheService` instance: the in-memory map, the
disk tier, and the `currentMemorySize` counter. -/
structure CacheState where
  memoryCache : CacheMap
  diskCache : CacheMap
  currentMemorySize : Int
deriving DecidableEq, Repr

/-- A freshly constructed service: empty maps, zero size counter. -/
def initialState : CacheState := ⟨[], [], 0⟩

/-- `calculateSize`: `JSON.stringify(data).length * 2`. -/
def calculateSize (data : String) : Int := (data.length : Int) * 2

/-- `this.options.maxSize * 1024 * 1024`. -/
def maxSizeBytes (opts : CacheOptions) : Int := (opts.maxSize : Int) * 1024 * 1024

/-- The scan of `evictLeastRecentlyUsed` (lines 216-233): fold over the map
with accumulator `(oldestKey, oldestTimestamp)` starting at `(null, Date.now())`,
updating on a strictly smaller timestamp. -/
def findOldest (m : CacheMap) (now : Int) : Option String × Int :=
  m.foldl
    (fun acc kv => if kv.2.timestamp < acc.2 then (some kv.1, kv.2.timestamp) else acc)
    (none, now)

/-- `evictLeastRecentlyUsed`: remove the selected oldest-timestamp entry and
subtract its size; also report what was evicted. -/
def evictLeastRecentlyUsed (now : Int) (s : CacheState) :
    CacheState × Option (String × CacheEntry) :=
  match (findOldest s.memoryCache now).1 with
  | some oldestKey =>
    match mapGet s.memoryCache oldestKey with
    | some entry =>
        ({ s with memoryCache := mapDelete s.memoryCache oldestKey,
                  currentMemorySize := s.currentMemorySize - entry.size },
         some (oldestKey, entry))
    | none => (s, none)
  | none => (s, none)

/-- The `while` loop of `setMemoryEntry` (lines 160-162), with fuel and with
the evicted entries reported in order. -/
def evictLoop (now maxB dataSize : Int) :
    Nat → CacheState → CacheState × List (String × CacheEntry)
  | 0, s => (s, [])
  | fuel + 1, s =>
    if s.currentMemorySize + dataSize > maxB ∧ s.memoryCache ≠ [] then
      match evictLeastRecentlyUsed now s with
      | (s', some kv) =>
          let r := evictLoop now maxB dataSize fuel s'
          (r.1, kv :: r.2)
      | (_, none) => (s, [])
    else (s, [])

/-- `setMemoryEntry` (lines 155-173): evict until the new entry fits or the
map is empty, then store the entry and add its size to the counter. Note
that when the key already exists the replaced entry's size is not
subtracted. -/
def setMemoryEntry (opts : CacheOptions) (now : Int) (key data : String) (ttl : Int)
    (s : CacheState) : CacheState :=
  let dataSize := calculateSize data
  let s1 := (evictLoop now (maxSizeBytes opts) dataSize s.memoryCache.length s).1
  { s1 with
    memoryCache := mapSet s1.memoryCache key ⟨data, now, ttl, dataSize⟩,
    currentMemorySize := s1.currentMemorySize + dataSize }

/-- `setDiskEntry` (lines 190-201): serialize the entry under the key. -/
def setDiskEntry (now : Int) (key data : String) (ttl : Int) (s : CacheState) :
    CacheState :=
  { s with diskCache := mapSet s.diskCache key ⟨data, now, ttl, calculateSize data⟩ }

/-- `set` (lines 82-101): write to memory for memory/hybrid, to disk for
disk/hybrid; `ttl` defaults to the configured one. -/
def set (opts : CacheOptions) (now : Int) (key data : String) (ttl : Option Int)
    (s : CacheState) : CacheState :=
  let actualTtl := ttl.getD opts.ttl
  let s1 := if opts.strategy ≠ .disk then setMemoryEntry opts now key data actualTtl s else s
  if opts.strategy ≠ .memory then setDiskEntry now key data actualTtl s1 else s1

/-- `get` (lines 42-80): memory tier first (deleting an expired entry as a
side effect), then the disk tier, repopulating memory on a hybrid disk hit. -/
def get (opts : CacheOptions) (now : Int) (key : String) (s : CacheState) :
    Option String × CacheState :=
  let memStep : Option String × CacheState :=
    if opts.strategy ≠ .disk then
      match mapGet s.memoryCache key with
      | some memoryEntry =>
        if now - memoryEntry.timestamp < memoryEntry.ttl * 1000 then
          (some memoryEntry.data, s)
        else
          (none, { s with memoryCache := mapDelete s.memoryCache key,
                          currentMemorySize := s.currentMemorySize - memoryEntry.size })
      | none => (none, s)
    else (none, s)
  match memStep with
  | (some d, s1) => (some d, s1)
  | (none, s1) =>
    if opts.strategy ≠ .memory then
      match mapGet s1.diskCache key with
      | some diskEntry =>
        if now - diskEntry.timestamp < diskEntry.ttl * 1000 then
          (some diskEntry.data,
           if opts.strategy = .hybrid then
             setMemoryEntry opts now key diskEntry.data diskEntry.ttl s1
           else s1)
        else (none, s1)
      | none => (none, s1)
    else (none, s1)

/-- `delete` (lines 103-122). -/
def delete (opts : CacheOptions) (key : String) (s : CacheState) : CacheState :=
  let s1 := match mapGet s.memoryCache key with
    | some memoryEntry =>
        { s with memoryCache := mapDelete s.memoryCache key,
                 currentMemorySize := s.currentMemorySize - memoryEntry.size }
    | none => s
  if opts.strategy ≠ .memory then { s1 with diskCache := mapDelete s1.diskCache key } else s1

/-- `clear` (lines 124-139). -/
def clear (opts : CacheOptions) (s : CacheState) : CacheState :=
  let s1 : CacheState := { s with memoryCache := [], currentMemorySize := 0 }
  if opts.strategy ≠ .memory then { s1 with diskCache := [] } else s1

/-- The result record of `getStats` (lines 141-153). -/
structure CacheStats where
  memoryEntries : Nat
  memorySize : Int
  maxSize : Int
  strategy : Strategy
deriving DecidableEq, Repr

/-- `getStats`. -/
def getStats (opts : CacheOptions) (s : CacheState) : CacheStats :=
  ⟨s.memoryCache.length, s.currentMemorySize, maxSizeBytes opts, opts.strategy⟩

/-- Sum of the `size` fields of the entries currently in the memory map. -/
def memSum (m : CacheMap) : Int := (m.map (fun kv => kv.2.size)).sum

/-- One public cache operation (the `set`/`get`/`delete`/`clear` surface). -/
inductive CacheOp where
  | setOp (key data : String) (ttl : Option Int)
  | getOp (key : String)
  | deleteOp (key : String)
  | clearOp
deriving Repr

/-- Apply one operation at time `now`. -/
def step (opts : CacheOptions) (now : Int) (op : CacheOp) (s : CacheState) : CacheState :=
  match op with
  | .setOp k d t => set opts now k d t s
  | .getOp k => (get opts now k s).2
  | .deleteOp k => delete opts k s
  | .clearOp => clear opts s

/-- Run a timestamped operation sequence. -/
def runOps (opts : CacheOptions) : List (Int × CacheOp) → CacheState → CacheState
  | [], s => s
  | (now, op) :: rest, s => runOps opts rest (step opts now op s)

/-- Observer: the size the operation adds to the memory tier, if any — the
`dataSize` of a memory/hybrid `set`, or of a hybrid `get`'s repopulation
from an unexpired disk hit. -/
def memAddSize (opts : CacheOptions) (now : Int) (op : CacheOp) (s : CacheState) :
    Option Int :=
  match op with
  | .setOp _ d _ => if opts.strategy ≠ .disk then some (calculateSize d) else none
  | .getOp k =>
    if opts.strategy = .hybrid then
      match mapGet s.memoryCache k with
      | some e =>
        if now - e.timestamp < e.ttl * 1000 then none
        else
          match mapGet s.diskCache k with
          | some de =>
              if now - de.timestamp < de.ttl * 1000 then some (calculateSize de.data)
              else none
          | none => none
      | none =>
        match mapGet s.diskCache k with
        | some de =>
            if now - de.timestamp < de.ttl * 1000 then some (calculateSize de.data)
            else none
        | none => none
    else none
  | .deleteOp _ => none
  | .clearOp => none

/-- The size of the most recently added memory entry after a run (`last`
carries the value from before the run). -/
def lastAddedSize (opts : CacheOptions) :
    List (Int × CacheOp) → CacheState → Int → Int
  | [], _, last => last
  | (now, op) :: rest, s, last =>
      lastAddedSize opts rest (step opts now op s) ((memAddSize opts now op s).getD last)

section CacheSanity

/-- memory-only options with the default 50MB / 3600s configuration. -/
def memOpts : CacheOptions := ⟨3600, 50, .memory⟩

example :
    (get memOpts 2000 "k"
      (set memOpts 1000 "k" "\x22v\x22" none initialState)).1 = some "\x22v\x22" := by
  rfl

example :
    (get memOpts (1000 + 3600 * 1000) "k"
      (set memOpts 1000 "k" "\x22v\x22" none initialState)) =
      (none, initialState) := by
  rfl

end CacheSanity

/-- The memory map's keys are pairwise distinct (a JS `Map` guarantees it). -/
def keysNodup (m : CacheMap) : Prop := (m.map (fun kv => kv.1)).Nodup

section MapLemmas

theorem mapGet_mem (m : CacheMap) (k : String) (e : CacheEntry)
    (h : mapGet m k = some e) : (k, e) ∈ m := by
  unfold mapGet at h
  obtain ⟨kv, hfind, hsnd⟩ := Option.map_eq_some'.mp h
  have hk : kv.1 = k := by
    have := List.find?_some hfind
    exact eq_of_beq this
  have hmem := List.mem_of_find?_eq_some hfind
  have : kv = (k, e) := by
    cases kv
    simp only at hk hsnd
    rw [hk, hsnd]
  rwa [this] at hmem

theorem mapGet_of_mem (m : CacheMap) (k : String) (e : CacheEntry)
    (hnd : keysNodup m) (hmem : (k, e) ∈ m) : mapGet m k = some e := by
  induction m with
  | nil => cases hmem
  | cons hd tl ih =>
    rcases List.mem_cons.mp hmem with heq | htl
    · subst heq
      simp [mapGet, List.find?_cons_of_pos]
    · have hne : hd.1 ≠ k := by
        intro hcontra
        have hmemfst : k ∈ tl.map (fun kv => kv.1) :=
          List.mem_map.mpr ⟨(k, e), htl, rfl⟩
        unfold keysNodup at hnd
        rw [List.map_cons, List.nodup_cons] at hnd
        exact hnd.1 (hcontra ▸ hmemfst)
      have hstep : mapGet (hd :: tl) k = mapGet tl k := by
        simp [mapGet, List.find?_cons_of_neg, hne]
      rw [hstep]
      refine ih ?_ htl
      unfold keysNodup at hnd ⊢
      rw [List.map_cons, List.nodup_cons] at hnd
      exact hnd.2

theorem mapGet_mapSet_self (m : CacheMap) (k : String) (e : CacheEntry) :
    mapGet (mapSet m k e) k = some e := by
  unfold mapSet mapGet
  by_cases h : (m.find? (fun kv => kv.1 == k)).isSome
  · rw [if_pos h, List.find?_map]
    have hcomp : ((fun kv : String × CacheEntry => kv.1 == k) ∘
        (fun kv => if kv.1 == k then (k, e) else kv)) =
        (fun kv : String × CacheEntry => kv.1 == k) := by
      funext kv
      by_cases hk : kv.1 == k
      · simp only [Function.comp_apply, if_pos hk]
        simp [hk]
      · simp only [Function.comp_apply, if_neg hk]
    rw [hcomp]
    obtain ⟨kv₀, hkv₀⟩ := Option.isSome_iff_exists.mp h
    have hp : (kv₀.1 == k) = true := by
      have h2 := List.find?_some hkv₀
      exact h2
    rw [hkv₀]
    simp [eq_of_beq hp]
  · rw [if_neg h, List.find?_append, Option.not_isSome_iff_eq_none.mp h]
    simp

theorem mem_mapSet (m : CacheMap) (k : String) (e : CacheEntry) (kv : String × CacheEntry)
    (h : kv ∈ mapSet m k e) : kv = (k, e) ∨ kv ∈ m := by
  unfold mapSet at h
  by_cases hc : (m.find? (fun kv => kv.1 == k)).isSome
  · rw [if_pos hc] at h
    obtain ⟨kv', hkv', heq⟩ := List.mem_map.mp h
    by_cases hk : kv'.1 == k
    · left; rw [← heq, if_pos hk]
    · right; rwa [← heq, if_neg hk]
  · rw [if_neg hc] at h
    rcases List.mem_append.mp h with hm | hs
    · right; exact hm
    · left; simpa using hs

theorem keysNodup_mapSet (m : CacheMap) (k : String) (e : CacheEntry)
    (hnd : keysNodup m) : keysNodup (mapSet m k e) := by
  unfold mapSet
  by_cases hc : (m.find? (fun kv => kv.1 == k)).isSome
  · rw [if_pos hc]
    unfold keysNodup at hnd ⊢
    have : (m.map (fun kv => if kv.1 == k then (k, e) else kv)).map (fun kv => kv.1) =
        m.map (fun kv => kv.1) := by
      rw [List.map_map]
      refine List.map_congr_left (fun kv _ => ?_)
      simp only [Function.comp_apply]
      by_cases hk : kv.1 == k
      · rw [if_pos hk]
        exact (eq_of_beq hk).symm
      · rw [if_neg hk]
    rwa [this]
  · rw [if_neg hc]
    unfold keysNodup at hnd ⊢
    rw [List.map_append, List.nodup_append]
    refine ⟨hnd, by simp, ?_⟩
    intro a ha hb
    simp only [List.map_cons, List.map_nil, List.mem_singleton] at hb
    subst hb
    obtain ⟨kv, hkv, hfst⟩ := List.mem_map.mp ha
    exact hc (List.find?_isSome.mpr ⟨kv, hkv, by simp [hfst]⟩)

end MapLemmas

section SumLemmas

@[simp] theorem memSum_nil : memSum [] = 0 := rfl

@[simp] theorem memSum_cons (kv : String × CacheEntry) (l : CacheMap) :
    memSum (kv :: l) = kv.2.size + memSum l := by
  simp [memSum]

theorem find?_cons_eq (p : α → Bool) (a : α) (l : List α) :
    List.find? p (a :: l) = if p a then some a else List.find? p l := by
  by_cases h : p a
  · rw [if_pos h]
    exact List.find?_cons_of_pos l h
  · rw [if_neg h]
    exact List.find?_cons_of_neg l h

theorem mem_mapDelete (m : CacheMap) (k : String) (kv : String × CacheEntry)
    (h : kv ∈ mapDelete m k) : kv ∈ m :=
  List.mem_of_mem_filter h

theorem keysNodup_mapDelete (m : CacheMap) (k : String) (hnd : keysNodup m) :
    keysNodup (mapDelete m k) :=
  List.Nodup.sublist (List.Sublist.map _ (List.filter_sublist m)) hnd

theorem mapDelete_eq_self (m : CacheMap) (k : String)
    (h : ∀ kv ∈ m, (kv.1 == k) = false) : mapDelete m k = m := by
  unfold mapDelete
  refine List.filter_eq_self.mpr (fun kv hkv => ?_)
  simp [h kv hkv]

theorem memSum_mapDelete (m : CacheMap) (k : String) (e : CacheEntry)
    (hnd : keysNodup m) (hmem : (k, e) ∈ m) :
    memSum (mapDelete m k) = memSum m - e.size := by
  induction m with
  | nil => cases hmem
  | cons hd tl ih =>
    have hnd' : keysNodup tl := by
      unfold keysNodup at hnd ⊢
      rw [List.map_cons, List.nodup_cons] at hnd
      exact hnd.2
    rcases List.mem_cons.mp hmem with heq | htl
    · subst heq
      have hk : k ∉ tl.map (fun kv => kv.1) := by
        unfold keysNodup at hnd
        rw [List.map_cons, List.nodup_cons] at hnd
        exact hnd.1
      have hfilter : mapDelete tl k = tl := by
        refine mapDelete_eq_self tl k (fun kv hkv => ?_)
        by_cases hc : (kv.1 == k) = true
        · exact absurd (List.mem_map.mpr ⟨kv, hkv, eq_of_beq hc⟩) hk
        · simpa using hc
      have hdrop : mapDelete ((k, e) :: tl) k = mapDelete tl k := by
        unfold mapDelete
        rw [List.filter_cons]
        simp
      rw [hdrop, hfilter]
      simp only [memSum_cons]
      ring
    · have hne : (hd.1 == k) = false := by
        by_cases hc : (hd.1 == k) = true
        · exfalso
          have hkmem : k ∈ tl.map (fun kv => kv.1) :=
            List.mem_map.mpr ⟨(k, e), htl, rfl⟩
          unfold keysNodup at hnd
          rw [List.map_cons, List.nodup_cons] at hnd
          exact hnd.1 (eq_of_beq hc ▸ hkmem)
        · simpa using hc
      have hkeep : mapDelete (hd :: tl) k = hd :: mapDelete tl k := by
        unfold mapDelete
        rw [List.filter_cons]
        simp [hne]
      rw [hkeep, memSum_cons, ih hnd' htl, memSum_cons]
      ring

theorem mapSet_cons_of_ne (hd : String × CacheEntry) (tl : CacheMap) (k : String)
    (e : CacheEntry) (h : (hd.1 == k) = false) :
    mapSet (hd :: tl) k e = hd :: mapSet tl k e := by
  have hfind : List.find? (fun kv => kv.1 == k) (hd :: tl) =
      List.find? (fun kv => kv.1 == k) tl := by
    rw [find?_cons_eq]
    simp [h]
  unfold mapSet
  rw [hfind]
  by_cases hc : (tl.find? (fun kv => kv.1 == k)).isSome
  · rw [if_pos hc, if_pos hc, List.map_cons]
    congr 1
    rw [if_neg (by simp [h])]
  · rw [if_neg hc, if_neg hc, List.cons_append]

theorem memSum_mapSet_present (m : CacheMap) (k : String) (e old : CacheEntry)
    (hnd : keysNodup m) (hget : mapGet m k = some old) :
    memSum (mapSet m k e) = memSum m - old.size + e.size := by
  induction m with
  | nil => simp [mapGet] at hget
  | cons hd tl ih =>
    have hnd' : keysNodup tl := by
      unfold keysNodup at hnd ⊢
      rw [List.map_cons, List.nodup_cons] at hnd
      exact hnd.2
    by_cases hk : (hd.1 == k) = true
    · have hold : old = hd.2 := by
        unfold mapGet at hget
        rw [find?_cons_eq, if_pos hk] at hget
        simp at hget
        exact hget.symm
      have hnone : ∀ kv ∈ tl, (kv.1 == k) = false := by
        intro kv hkv
        by_cases hc : (kv.1 == k) = true
        · exfalso
          have hkmem : kv.1 ∈ tl.map (fun kv => kv.1) :=
            List.mem_map.mpr ⟨kv, hkv, rfl⟩
          unfold keysNodup at hnd
          rw [List.map_cons, List.nodup_cons] at hnd
          exact hnd.1 ((eq_of_beq hk).symm ▸ (eq_of_beq hc) ▸ hkmem)
        · simpa using hc
      have hset : mapSet (hd :: tl) k e = (k, e) :: tl := by
        have hfindpos : List.find? (fun kv => kv.1 == k) (hd :: tl) = some hd := by
          rw [find?_cons_eq, if_pos hk]
        unfold mapSet
        rw [hfindpos, if_pos (by simp), List.map_cons, if_pos hk]
        congr 1
        refine (List.map_congr_left (fun kv hkv => ?_)).trans (List.map_id tl)
        rw [if_neg (by simp [hnone kv hkv])]
        rfl
      rw [hset]
      simp only [memSum_cons, hold]
      ring
    · have hne : (hd.1 == k) = false := by simpa using hk
      have hget' : mapGet tl k = some old := by
        unfold mapGet at hget ⊢
        rwa [find?_cons_eq, if_neg (by simp [hne])] at hget
      rw [mapSet_cons_of_ne hd tl k e hne, memSum_cons, ih hnd' hget', memSum_cons]
      ring

theorem memSum_mapSet_absent (m : CacheMap) (k : String) (e : CacheEntry)
    (hget : mapGet m k = none) :
    memSum (mapSet m k e) = memSum m + e.size := by
  have hfind : m.find? (fun kv => kv.1 == k) = none := by
    unfold mapGet at hget
    exact Option.map_eq_none'.mp hget
  unfold mapSet
  rw [if_neg (by simp [hfind])]
  unfold memSum
  rw [List.map_append, List.sum_append]
  simp

theorem memSum_nonneg (m : CacheMap) (hsz : ∀ kv ∈ m, 0 ≤ kv.2.size) :
    0 ≤ memSum m := by
  induction m with
  | nil => simp
  | cons x xs ih =>
    have hx := hsz x (by simp)
    have hxs := ih (fun kv hkv => hsz kv (List.mem_cons_of_mem x hkv))
    simp only [memSum_cons]
    omega

theorem single_size_le_memSum (m : CacheMap) (k : String) (e : CacheEntry)
    (hsz : ∀ kv ∈ m, 0 ≤ kv.2.size) (hmem : (k, e) ∈ m) :
    e.size ≤ memSum m := by
  induction m with
  | nil => cases hmem
  | cons hd tl ih =>
    have htlsz : ∀ kv ∈ tl, 0 ≤ kv.2.size :=
      fun kv hkv => hsz kv (List.mem_cons_of_mem hd hkv)
    rcases List.mem_cons.mp hmem with heq | htl
    · subst heq
      have := memSum_nonneg tl htlsz
      simp only [memSum_cons]
      omega
    · have h0 := hsz hd (by simp)
      have := ih htlsz htl
      simp only [memSum_cons]
      omega

end SumLemmas

section EvictionLemmas

/-- Characterization of the accumulator fold inside `findOldest`: either no
element beats the accumulator (all timestamps at least `acc.2`), or the fold
returns a member entry of globally minimal timestamp strictly below `acc.2`. -/
theorem findOldest_fold (l : CacheMap) :
    ∀ acc : Option String × Int,
      (l.foldl (fun acc kv =>
          if kv.2.timestamp < acc.2 then (some kv.1, kv.2.timestamp) else acc) acc = acc ∧
        ∀ kv ∈ l, acc.2 ≤ kv.2.timestamp) ∨
      (∃ k e, (k, e) ∈ l ∧
        l.foldl (fun acc kv =>
          if kv.2.timestamp < acc.2 then (some kv.1, kv.2.timestamp) else acc) acc =
          (some k, e.timestamp) ∧
        e.timestamp < acc.2 ∧ ∀ kv ∈ l, e.timestamp ≤ kv.2.timestamp) := by
  induction l with
  | nil =>
    intro acc
    left
    exact ⟨rfl, by simp⟩
  | cons kv0 l' ih =>
    intro acc
    rw [List.foldl_cons]
    by_cases h : kv0.2.timestamp < acc.2
    · rw [if_pos h]
      rcases ih (some kv0.1, kv0.2.timestamp) with ⟨heq, hall⟩ | ⟨k, e, hmem, heq, hlt, hall⟩
      · right
        refine ⟨kv0.1, kv0.2, by simp, by rw [heq], h, ?_⟩
        intro kv hkv
        rcases List.mem_cons.mp hkv with rfl | hkv'
        · exact le_refl _
        · exact hall kv hkv'
      · right
        refine ⟨k, e, List.mem_cons_of_mem _ hmem, heq, lt_trans hlt h, ?_⟩
        intro kv hkv
        rcases List.mem_cons.mp hkv with rfl | hkv'
        · exact le_of_lt hlt
        · exact hall kv hkv'
    · rw [if_neg h]
      rcases ih acc with ⟨heq, hall⟩ | ⟨k, e, hmem, heq, hlt, hall⟩
      · left
        refine ⟨heq, ?_⟩
        intro kv hkv
        rcases List.mem_cons.mp hkv with rfl | hkv'
        · exact not_lt.mp h
        · exact hall kv hkv'
      · right
        refine ⟨k, e, List.mem_cons_of_mem _ hmem, heq, hlt, ?_⟩
        intro kv hkv
        rcases List.mem_cons.mp hkv with rfl | hkv'
        · exact le_of_lt (lt_of_lt_of_le hlt (not_lt.mp h))
        · exact hall kv hkv'

/-- If the scan selects no key, every entry's timestamp is at least `now`. -/
theorem findOldest_none_spec (m : CacheMap) (now : Int)
    (h : (findOldest m now).1 = none) : ∀ kv ∈ m, now ≤ kv.2.timestamp := by
  rcases findOldest_fold m (none, now) with ⟨_, hall⟩ | ⟨k, e, _, heq, _, _⟩
  · exact hall
  · unfold findOldest at h
    rw [heq] at h
    cases h

/-- If the scan selects a key, that key holds an entry of globally minimal
timestamp, strictly below `now`. -/
theorem findOldest_some_spec (m : CacheMap) (now : Int) (k : String)
    (h : (findOldest m now).1 = some k) :
    ∃ e, (k, e) ∈ m ∧ e.timestamp < now ∧
      ∀ kv ∈ m, e.timestamp ≤ kv.2.timestamp := by
  rcases findOldest_fold m (none, now) with ⟨heq, _⟩ | ⟨k', e, hmem, heq, hlt, hall⟩
  · unfold findOldest at h
    rw [heq] at h
    cases h
  · unfold findOldest at h
    rw [heq] at h
    simp only at h
    cases h
    exact ⟨e, hmem, hlt, hall⟩

/-- `evictLeastRecentlyUsed` on a non-empty map whose timestamps all precede
`now`: it removes exactly one member entry of minimal timestamp and subtracts
its size. -/
theorem evictLRU_spec (now : Int) (s : CacheState)
    (hnd : keysNodup s.memoryCache) (hne : s.memoryCache ≠ [])
    (hts : ∀ kv ∈ s.memoryCache, kv.2.timestamp < now) :
    ∃ k e, (k, e) ∈ s.memoryCache ∧
      evictLeastRecentlyUsed now s =
        ({ s with memoryCache := mapDelete s.memoryCache k,
                  currentMemorySize := s.currentMemorySize - e.size }, some (k, e)) ∧
      ∀ kv ∈ s.memoryCache, e.timestamp ≤ kv.2.timestamp := by
  cases hfo : (findOldest s.memoryCache now).1 with
  | none =>
    exfalso
    obtain ⟨kv0, hkv0⟩ := List.exists_mem_of_ne_nil s.memoryCache hne
    exact absurd (hts kv0 hkv0) (not_lt.mpr (findOldest_none_spec _ _ hfo kv0 hkv0))
  | some k =>
    obtain ⟨e, hmem, hlt, hall⟩ := findOldest_some_spec _ _ _ hfo
    have hget : mapGet s.memoryCache k = some e := mapGet_of_mem _ _ _ hnd hmem
    refine ⟨k, e, hmem, ?_, hall⟩
    unfold evictLeastRecentlyUsed
    rw [hfo]
    simp only [hget]

/-- Deleting a present key strictly shrinks the map. -/
theorem mapDelete_length_lt (m : CacheMap) (k : String) (e : CacheEntry)
    (hmem : (k, e) ∈ m) : (mapDelete m k).length < m.length := by
  unfold mapDelete
  refine List.length_filter_lt_length_iff_exists.mpr ⟨(k, e), hmem, ?_⟩
  simp

end EvictionLemmas

section EvictLoopSpec

/-- Main specification of the eviction loop with fuel at least the number of
entries: the loop reaches a state that either fits (`size + ds ≤ maxB`) or
is empty; it only removes entries (preserving key uniqueness, the disk tier,
and the counter-minus-sum difference), and the evicted entries come from the
original map, in ascending timestamp order, all of them no newer than any
surviving entry. -/
theorem evictLoop_spec (now maxB ds : Int) :
    ∀ (fuel : Nat) (s : CacheState),
      keysNodup s.memoryCache →
      (∀ kv ∈ s.memoryCache, kv.2.timestamp < now) →
      s.memoryCache.length ≤ fuel →
      ((evictLoop now maxB ds fuel s).1.currentMemorySize + ds ≤ maxB ∨
        (evictLoop now maxB ds fuel s).1.memoryCache = []) ∧
      keysNodup (evictLoop now maxB ds fuel s).1.memoryCache ∧
      (∀ kv ∈ (evictLoop now maxB ds fuel s).1.memoryCache, kv ∈ s.memoryCache) ∧
      (evictLoop now maxB ds fuel s).1.diskCache = s.diskCache ∧
      (evictLoop now maxB ds fuel s).1.currentMemorySize -
          memSum (evictLoop now maxB ds fuel s).1.memoryCache =
        s.currentMemorySize - memSum s.memoryCache ∧
      List.Pairwise (fun a b => a.2.timestamp ≤ b.2.timestamp)
        (evictLoop now maxB ds fuel s).2 ∧
      (∀ a ∈ (evictLoop now maxB ds fuel s).2,
        ∀ kv ∈ (evictLoop now maxB ds fuel s).1.memoryCache,
          a.2.timestamp ≤ kv.2.timestamp) ∧
      (∀ a ∈ (evictLoop now maxB ds fuel s).2, a ∈ s.memoryCache) := by
  intro fuel
  induction fuel with
  | zero =>
    intro s hnd hts hlen
    have hnil : s.memoryCache = [] := List.length_eq_zero.mp (Nat.le_zero.mp hlen)
    rw [show evictLoop now maxB ds 0 s = (s, []) from rfl]
    exact ⟨Or.inr hnil, hnd, fun kv hkv => hkv, rfl, rfl, List.Pairwise.nil,
      fun a ha => absurd ha (List.not_mem_nil a), fun a ha => absurd ha (List.not_mem_nil a)⟩
  | succ n ih =>
    intro s hnd hts hlen
    by_cases hcond : s.currentMemorySize + ds > maxB ∧ s.memoryCache ≠ []
    · obtain ⟨k, e, hmem, heq, hmin⟩ := evictLRU_spec now s hnd hcond.2 hts
      have hstep : evictLoop now maxB ds (n + 1) s =
          ((evictLoop now maxB ds n
              { s with memoryCache := mapDelete s.memoryCache k,
                       currentMemorySize := s.currentMemorySize - e.size }).1,
            (k, e) :: (evictLoop now maxB ds n
              { s with memoryCache := mapDelete s.memoryCache k,
                       currentMemorySize := s.currentMemorySize - e.size }).2) := by
        rw [show evictLoop now maxB ds (n + 1) s =
            (if s.currentMemorySize + ds > maxB ∧ s.memoryCache ≠ [] then
              match evictLeastRecentlyUsed now s with
              | (s', some kv) =>
                  let r := evictLoop now maxB ds n s'
                  (r.1, kv :: r.2)
              | (_, none) => (s, []) else (s, [])) from rfl]
        rw [if_pos hcond, heq]
      have hnd' : keysNodup (mapDelete s.memoryCache k) :=
        keysNodup_mapDelete _ _ hnd
      have hts' : ∀ kv ∈ mapDelete s.memoryCache k, kv.2.timestamp < now :=
        fun kv hkv => hts kv (mem_mapDelete _ _ _ hkv)
      have hlen' : (mapDelete s.memoryCache k).length ≤ n := by
        have := mapDelete_length_lt s.memoryCache k e hmem
        omega
      obtain ⟨hfit, hnd2, hsub, hdisk, hphant, hpair, hminsurv, htrace⟩ :=
        ih { s with memoryCache := mapDelete s.memoryCache k,
                    currentMemorySize := s.currentMemorySize - e.size } hnd' hts' hlen'
      rw [hstep]
      refine ⟨hfit, hnd2, ?_, hdisk, ?_, ?_, ?_, ?_⟩
      · exact fun kv hkv => mem_mapDelete _ _ _ (hsub kv hkv)
      · rw [hphant]
        rw [memSum_mapDelete s.memoryCache k e hnd hmem]
        ring
      · refine List.Pairwise.cons ?_ hpair
        intro b hb
        exact hmin b (mem_mapDelete _ _ _ (htrace b hb))
      · intro a ha kv hkv
        rcases List.mem_cons.mp ha with rfl | ha'
        · exact hmin kv (mem_mapDelete _ _ _ (hsub kv hkv))
        · exact hminsurv a ha' kv hkv
      · intro a ha
        rcases List.mem_cons.mp ha with rfl | ha'
        · exact hmem
        · exact mem_mapDelete _ _ _ (htrace a ha')
    · have hstop : evictLoop now maxB ds (n + 1) s = (s, []) := by
        rw [show evictLoop now maxB ds (n + 1) s =
            (if s.currentMemorySize + ds > maxB ∧ s.memoryCache ≠ [] then
              match evictLeastRecentlyUsed now s with
              | (s', some kv) =>
                  let r := evictLoop now maxB ds n s'
                  (r.1, kv :: r.2)
              | (_, none) => (s, []) else (s, [])) from rfl]
        rw [if_neg hcond]
      rw [hstop]
      have hfit : s.currentMemorySize + ds ≤ maxB ∨ s.memoryCache = [] := by
        by_cases h1 : s.currentMemorySize + ds > maxB
        · right
          by_cases h2 : s.memoryCache = []
          · exact h2
          · exact absurd ⟨h1, h2⟩ hcond
        · left
          omega
      exact ⟨hfit, hnd, fun kv hkv => hkv, rfl, rfl, List.Pairwise.nil,
        fun a ha => absurd ha (List.not_mem_nil a), fun a ha => absurd ha (List.not_mem_nil a)⟩

end EvictLoopSpec

section SetMemorySpec

/-- Effect of the final store step of `setMemoryEntry` on a post-eviction
state `s1` that fits or is empty. -/
theorem storeStep_spec (opts : CacheOptions) (now : Int) (key data : String)
    (ttl : Int) (s1 : CacheState)
    (hnd1 : keysNodup s1.memoryCache)
    (hmem1 : ∀ kv ∈ s1.memoryCache, kv.2.timestamp < now ∧ 0 ≤ kv.2.size)
    (hph0 : 0 ≤ s1.currentMemorySize - memSum s1.memoryCache)
    (hph1 : s1.currentMemorySize - memSum s1.memoryCache ≤ maxSizeBytes opts)
    (hfit : s1.currentMemorySize + calculateSize data ≤ maxSizeBytes opts ∨
      s1.memoryCache = []) :
    keysNodup (mapSet s1.memoryCache key ⟨data, now, ttl, calculateSize data⟩) ∧
    (∀ kv ∈ mapSet s1.memoryCache key ⟨data, now, ttl, calculateSize data⟩,
      kv.2.timestamp ≤ now ∧ 0 ≤ kv.2.size) ∧
    0 ≤ (s1.currentMemorySize + calculateSize data) -
        memSum (mapSet s1.memoryCache key ⟨data, now, ttl, calculateSize data⟩) ∧
    (s1.currentMemorySize + calculateSize data) -
        memSum (mapSet s1.memoryCache key ⟨data, now, ttl, calculateSize data⟩) ≤
      maxSizeBytes opts ∧
    s1.currentMemorySize + calculateSize data ≤ maxSizeBytes opts + calculateSize data ∧
    mapGet (mapSet s1.memoryCache key ⟨data, now, ttl, calculateSize data⟩) key =
      some ⟨data, now, ttl, calculateSize data⟩ := by
  have hds0 : 0 ≤ calculateSize data := by
    unfold calculateSize
    positivity
  have hsz1 : ∀ kv ∈ s1.memoryCache, 0 ≤ kv.2.size := fun kv hkv => (hmem1 kv hkv).2
  refine ⟨keysNodup_mapSet _ _ _ hnd1, ?_, ?_, ?_, ?_, mapGet_mapSet_self _ _ _⟩
  · intro kv hkv
    rcases mem_mapSet _ _ _ _ hkv with rfl | hkv'
    · exact ⟨le_refl _, hds0⟩
    · exact ⟨le_of_lt (hmem1 kv hkv').1, (hmem1 kv hkv').2⟩
  all_goals {
    cases hget : mapGet s1.memoryCache key with
    | some old =>
      have hsum := memSum_mapSet_present s1.memoryCache key
        ⟨data, now, ttl, calculateSize data⟩ old hnd1 hget
      rw [show (⟨data, now, ttl, calculateSize data⟩ : CacheEntry).size =
        calculateSize data from rfl] at hsum
      have hmemold : (key, old) ∈ s1.memoryCache := mapGet_mem _ _ _ hget
      have hold0 : 0 ≤ old.size := (hmem1 _ hmemold).2
      have holdle : old.size ≤ memSum s1.memoryCache :=
        single_size_le_memSum _ _ _ hsz1 hmemold
      rcases hfit with hle | hempty
      · omega
      · rw [hempty] at hget
        simp [mapGet] at hget
    | none =>
      have hsum := memSum_mapSet_absent s1.memoryCache key
        ⟨data, now, ttl, calculateSize data⟩ hget
      rw [show (⟨data, now, ttl, calculateSize data⟩ : CacheEntry).size =
        calculateSize data from rfl] at hsum
      rcases hfit with hle | hempty
      · omega
      · have hsum0 : memSum s1.memoryCache = 0 := by rw [hempty]; rfl
        omega
  }

/-- Full specification of `setMemoryEntry` on a well-formed state: key
uniqueness is preserved, all entries are no newer than `now` with nonnegative
sizes, the counter-minus-sum slack stays within `[0, maxSizeBytes]`, the
counter is at most `maxSizeBytes` plus the new entry's size, the disk tier
is untouched, and the new entry is stored under its key. -/
theorem setMemoryEntry_spec (opts : CacheOptions) (now : Int) (key data : String)
    (ttl : Int) (s : CacheState)
    (hnd : keysNodup s.memoryCache)
    (hts : ∀ kv ∈ s.memoryCache, kv.2.timestamp < now)
    (hsz : ∀ kv ∈ s.memoryCache, 0 ≤ kv.2.size)
    (hph0 : 0 ≤ s.currentMemorySize - memSum s.memoryCache)
    (hph1 : s.currentMemorySize - memSum s.memoryCache ≤ maxSizeBytes opts) :
    keysNodup (setMemoryEntry opts now key data ttl s).memoryCache ∧
    (∀ kv ∈ (setMemoryEntry opts now key data ttl s).memoryCache,
      kv.2.timestamp ≤ now ∧ 0 ≤ kv.2.size) ∧
    0 ≤ (setMemoryEntry opts now key data ttl s).currentMemorySize -
        memSum (setMemoryEntry opts now key data ttl s).memoryCache ∧
    (setMemoryEntry opts now key data ttl s).currentMemorySize -
        memSum (setMemoryEntry opts now key data ttl s).memoryCache ≤
      maxSizeBytes opts ∧
    (setMemoryEntry opts now key data ttl s).currentMemorySize ≤
      maxSizeBytes opts + calculateSize data ∧
    (setMemoryEntry opts now key data ttl s).diskCache = s.diskCache ∧
    mapGet (setMemoryEntry opts now key data ttl s).memoryCache key =
      some ⟨data, now, ttl, calculateSize data⟩ := by
  obtain ⟨hfit, hnd1, hsub, hdisk, hphant, _, _, _⟩ :=
    evictLoop_spec now (maxSizeBytes opts) (calculateSize data)
      s.memoryCache.length s hnd hts le_rfl
  have hmem1 : ∀ kv ∈ (evictLoop now (maxSizeBytes opts) (calculateSize data)
      s.memoryCache.length s).1.memoryCache, kv.2.timestamp < now ∧ 0 ≤ kv.2.size :=
    fun kv hkv => ⟨hts kv (hsub kv hkv), hsz kv (hsub kv hkv)⟩
  have hstore := storeStep_spec opts now key data ttl
    (evictLoop now (maxSizeBytes opts) (calculateSize data) s.memoryCache.length s).1
    hnd1 hmem1 (by omega) (by omega) hfit
  have hset_eq : setMemoryEntry opts now key data ttl s =
      { (evictLoop now (maxSizeBytes opts) (calculateSize data) s.memoryCache.length s).1 with
        memoryCache := mapSet
          (evictLoop now (maxSizeBytes opts) (calculateSize data)
            s.memoryCache.length s).1.memoryCache key
          ⟨data, now, ttl, calculateSize data⟩,
        currentMemorySize := (evictLoop now (maxSizeBytes opts) (calculateSize data)
          s.memoryCache.length s).1.currentMemorySize + calculateSize data } := rfl
  rw [hset_eq]
  exact ⟨hstore.1, hstore.2.1, hstore.2.2.1, hstore.2.2.2.1, hstore.2.2.2.2.1,
    hdisk, hstore.2.2.2.2.2⟩

end SetMemorySpec

section ClaimTheorems

/-- C6: on a `set` that needs room, the store evicts existing entries one at
a time in ascending entry-timestamp order (each evictee is a current entry
of minimal timestamp, no newer than any survivor) until the new entry fits
or the store is empty; the `set` itself never fails — the new entry is
stored under its key regardless. Timestamps are assumed to lie strictly in
the past of the operation (the monotone `Date.now()` clock). -/
theorem eviction_ascending_timestamps (opts : CacheOptions) (now : Int)
    (key data : String) (ttl : Int) (s : CacheState)
    (hnd : keysNodup s.memoryCache)
    (hts : ∀ kv ∈ s.memoryCache, kv.2.timestamp < now) :
    List.Pairwise (fun a b => a.2.timestamp ≤ b.2.timestamp)
      (evictLoop now (maxSizeBytes opts) (calculateSize data)
        s.memoryCache.length s).2 ∧
    (∀ a ∈ (evictLoop now (maxSizeBytes opts) (calculateSize data)
        s.memoryCache.length s).2, a ∈ s.memoryCache) ∧
    (∀ a ∈ (evictLoop now (maxSizeBytes opts) (calculateSize data)
        s.memoryCache.length s).2,
      ∀ kv ∈ (evictLoop now (maxSizeBytes opts) (calculateSize data)
        s.memoryCache.length s).1.memoryCache,
        a.2.timestamp ≤ kv.2.timestamp) ∧
    ((evictLoop now (maxSizeBytes opts) (calculateSize data)
        s.memoryCache.length s).1.currentMemorySize + calculateSize data ≤
        maxSizeBytes opts ∨
      (evictLoop now (maxSizeBytes opts) (calculateSize data)
        s.memoryCache.length s).1.memoryCache = []) ∧
    mapGet (setMemoryEntry opts now key data ttl s).memoryCache key =
      some ⟨data, now, ttl, calculateSize data⟩ := by
  obtain ⟨hfit, _, _, _, _, hpair, hminsurv, htrace⟩ :=
    evictLoop_spec now (maxSizeBytes opts) (calculateSize data)
      s.memoryCache.length s hnd hts le_rfl
  exact ⟨hpair, htrace, hminsurv, hfit, mapGet_mapSet_self _ _ _⟩

/-- Options with a 0 MB capacity, forcing eviction on every set. -/
def tinyOpts : CacheOptions := ⟨3600, 0, .memory⟩

/-- A two-entry state used to exercise the eviction path. -/
def evictionState : CacheState :=
  ⟨[("a", ⟨"xx", 1, 3600, 4⟩), ("b", ⟨"yy", 2, 3600, 4⟩)], [], 8⟩

theorem eviction_ascending_timestamps_witness :
    List.Pairwise (fun a b => a.2.timestamp ≤ b.2.timestamp)
      (evictLoop 10 (maxSizeBytes tinyOpts) (calculateSize "zz")
        evictionState.memoryCache.length evictionState).2 ∧
    (∀ a ∈ (evictLoop 10 (maxSizeBytes tinyOpts) (calculateSize "zz")
        evictionState.memoryCache.length evictionState).2,
      a ∈ evictionState.memoryCache) ∧
    (∀ a ∈ (evictLoop 10 (maxSizeBytes tinyOpts) (calculateSize "zz")
        evictionState.memoryCache.length evictionState).2,
      ∀ kv ∈ (evictLoop 10 (maxSizeBytes tinyOpts) (calculateSize "zz")
        evictionState.memoryCache.length evictionState).1.memoryCache,
        a.2.timestamp ≤ kv.2.timestamp) ∧
    ((evictLoop 10 (maxSizeBytes tinyOpts) (calculateSize "zz")
        evictionState.memoryCache.length evictionState).1.currentMemorySize +
        calculateSize "zz" ≤ maxSizeBytes tinyOpts ∨
      (evictLoop 10 (maxSizeBytes tinyOpts) (calculateSize "zz")
        evictionState.memoryCache.length evictionState).1.memoryCache = []) ∧
    mapGet (setMemoryEntry tinyOpts 10 "c" "zz" 3600 evictionState).memoryCache "c" =
      some ⟨"zz", 10, 3600, calculateSize "zz"⟩ :=
  eviction_ascending_timestamps tinyOpts 10 "c" "zz" 3600 evictionState
    (by unfold keysNodup; decide) (by decide)

/-- C5 (code bug): replacing an existing key does not subtract the old
entry's size. After `set k "aa"; set k "bbbb"` (sizes 4 and 8, no eviction
pressure) the counter reads 12 while the single stored entry has size 8 —
the counter does not equal the sum of the stored entries' sizes. -/
theorem replace_size_accounting_bug :
    (runOps memOpts [(1, .setOp "k" "aa" none), (2, .setOp "k" "bbbb" none)]
        initialState).currentMemorySize = 12 ∧
    memSum (runOps memOpts [(1, .setOp "k" "aa" none), (2, .setOp "k" "bbbb" none)]
        initialState).memoryCache = 8 ∧
    (runOps memOpts [(1, .setOp "k" "aa" none), (2, .setOp "k" "bbbb" none)]
        initialState).memoryCache =
      [("k", ⟨"bbbb", 2, 3600, 8⟩)] := by
  refine ⟨?_, ?_, ?_⟩ <;> rfl

/-- C8: `get` on the memory strategy. A present, unexpired entry
(`now - timestamp < ttl * 1000`) is returned with the state unchanged; a
present, expired entry yields a miss and is deleted with its size subtracted
from the counter; an absent key yields a miss with the state unchanged. -/
theorem get_memory_semantics (opts : CacheOptions) (now : Int) (key : String)
    (s : CacheState) (hstrat : opts.strategy = .memory) :
    (∀ e, mapGet s.memoryCache key = some e →
      (now - e.timestamp < e.ttl * 1000 → get opts now key s = (some e.data, s)) ∧
      (e.ttl * 1000 ≤ now - e.timestamp →
        get opts now key s =
          (none, { s with memoryCache := mapDelete s.memoryCache key,
                          currentMemorySize := s.currentMemorySize - e.size }))) ∧
    (mapGet s.memoryCache key = none → get opts now key s = (none, s)) := by
  constructor
  · intro e he
    constructor
    · intro hfresh
      simp [get, hstrat, he, hfresh]
    · intro hexp
      have hnotlt : ¬ (now - e.timestamp < e.ttl * 1000) := not_lt.mpr hexp
      simp [get, hstrat, he, hnotlt]
  · intro hnone
    simp [get, hstrat, hnone]

/-- A one-entry memory state with a 1-second TTL entry written at t=1000. -/
def shortTtlState : CacheState := ⟨[("k", ⟨"d", 1000, 1, 4⟩)], [], 4⟩

theorem get_memory_semantics_witness :
    get memOpts 1500 "k" shortTtlState = (some "d", shortTtlState) ∧
    get memOpts 3000 "k" shortTtlState = (none, ⟨[], [], 0⟩) ∧
    get memOpts 1500 "z" shortTtlState = (none, shortTtlState) := by
  refine ⟨?_, ?_, ?_⟩
  · exact ((get_memory_semantics memOpts 1500 "k" shortTtlState rfl).1
      ⟨"d", 1000, 1, 4⟩ rfl).1 (by decide)
  · exact (((get_memory_semantics memOpts 3000 "k" shortTtlState rfl).1
      ⟨"d", 1000, 1, 4⟩ rfl).2 (by decide)).trans rfl
  · exact (get_memory_semantics memOpts 1500 "z" shortTtlState rfl).2 rfl

theorem evictLRU_diskCache (now : Int) (s : CacheState) :
    (evictLeastRecentlyUsed now s).1.diskCache = s.diskCache := by
  unfold evictLeastRecentlyUsed
  rcases hfo : (findOldest s.memoryCache now).1 with _ | k
  · rfl
  · rcases hg : mapGet s.memoryCache k with _ | e
    · simp [hg]
    · simp [hg]

theorem evictLoop_diskCache (now maxB ds : Int) :
    ∀ (fuel : Nat) (s : CacheState),
      (evictLoop now maxB ds fuel s).1.diskCache = s.diskCache := by
  intro fuel
  induction fuel with
  | zero => intro s; rfl
  | succ n ih =>
    intro s
    rw [show evictLoop now maxB ds (n + 1) s =
        (if s.currentMemorySize + ds > maxB ∧ s.memoryCache ≠ [] then
          match evictLeastRecentlyUsed now s with
          | (s', some kv) =>
              let r := evictLoop now maxB ds n s'
              (r.1, kv :: r.2)
          | (_, none) => (s, []) else (s, [])) from rfl]
    by_cases hcond : s.currentMemorySize + ds > maxB ∧ s.memoryCache ≠ []
    · rw [if_pos hcond]
      rcases hev : evictLeastRecentlyUsed now s with ⟨s', o⟩
      have hd : s'.diskCache = s.diskCache := by
        have := evictLRU_diskCache now s
        rw [hev] at this
        exact this
      cases o with
      | some kv =>
        simp only [hev]
        rw [ih s']
        exact hd
      | none =>
        simp only [hev]
    · rw [if_neg hcond]

theorem setMemoryEntry_diskCache (opts : CacheOptions) (now : Int)
    (key data : String) (ttl : Int) (s : CacheState) :
    (setMemoryEntry opts now key data ttl s).diskCache = s.diskCache :=
  evictLoop_diskCache now (maxSizeBytes opts) (calculateSize data)
    s.memoryCache.length s

theorem set_hybrid_eq (opts : CacheOptions) (now : Int) (key data : String)
    (t : Option Int) (s : CacheState) (hstrat : opts.strategy = .hybrid) :
    set opts now key data t s =
      setDiskEntry now key data (t.getD opts.ttl)
        (setMemoryEntry opts now key data (t.getD opts.ttl) s) := by
  unfold set
  rw [hstrat]
  simp

/-- C9: under the hybrid strategy, `set` writes the entry to both the memory
and the disk tier; `get` checks memory first, and on a memory miss with an
unexpired disk entry it returns the disk data and repopulates the memory tier
with it (timestamped at the read), so an immediately following `get` (within
the entry's TTL) is served from the memory tier. -/
theorem hybrid_write_through_repopulate (opts : CacheOptions)
    (now₁ now₂ : Int) (key data : String) (t : Option Int) (s : CacheState)
    (e : CacheEntry) (hstrat : opts.strategy = .hybrid) :
    (mapGet (set opts now₁ key data t s).memoryCache key =
        some ⟨data, now₁, t.getD opts.ttl, calculateSize data⟩ ∧
      mapGet (set opts now₁ key data t s).diskCache key =
        some ⟨data, now₁, t.getD opts.ttl, calculateSize data⟩) ∧
    (mapGet s.memoryCache key = none → mapGet s.diskCache key = some e →
      now₁ - e.timestamp < e.ttl * 1000 →
      (get opts now₁ key s).1 = some e.data ∧
      mapGet (get opts now₁ key s).2.memoryCache key =
        some ⟨e.data, now₁, e.ttl, calculateSize e.data⟩ ∧
      (now₂ - now₁ < e.ttl * 1000 →
        (get opts now₂ key (get opts now₁ key s).2).1 = some e.data)) := by
  constructor
  · constructor
    · rw [set_hybrid_eq opts now₁ key data t s hstrat]
      exact mapGet_mapSet_self _ _ _
    · rw [set_hybrid_eq opts now₁ key data t s hstrat]
      have hd : (setMemoryEntry opts now₁ key data (t.getD opts.ttl) s).diskCache =
          s.diskCache := setMemoryEntry_diskCache _ _ _ _ _ _
      show mapGet (mapSet (setMemoryEntry opts now₁ key data
        (t.getD opts.ttl) s).diskCache key
        ⟨data, now₁, t.getD opts.ttl, calculateSize data⟩) key = _
      exact mapGet_mapSet_self _ _ _
  · intro hmemnone hdiskhit hfresh
    have hget1 : get opts now₁ key s =
        (some e.data, setMemoryEntry opts now₁ key e.data e.ttl s) := by
      simp [get, hstrat, hmemnone, hdiskhit, hfresh]
    refine ⟨by rw [hget1], ?_, ?_⟩
    · rw [hget1]
      exact mapGet_mapSet_self _ _ _
    · intro hfresh2
      rw [hget1]
      have h2 : mapGet (setMemoryEntry opts now₁ key e.data e.ttl s).memoryCache key =
          some ⟨e.data, now₁, e.ttl, calculateSize e.data⟩ :=
        mapGet_mapSet_self _ _ _
      simp [get, hstrat, h2, hfresh2]

/-- Options for the hybrid-strategy witness. -/
def hybridOpts : CacheOptions := ⟨3600, 50, .hybrid⟩

/-- Empty memory, one unexpired disk entry written at t=1000 with a 10s TTL. -/
def hybridState : CacheState := ⟨[], [("k", ⟨"v", 1000, 10, 2⟩)], 0⟩

theorem hybrid_write_through_repopulate_witness :
    (get hybridOpts 2000 "k" hybridState).1 = some "v" ∧
    mapGet (get hybridOpts 2000 "k" hybridState).2.memoryCache "k" =
      some ⟨"v", 2000, 10, calculateSize "v"⟩ ∧
    (get hybridOpts 3000 "k" (get hybridOpts 2000 "k" hybridState).2).1 =
      some "v" := by
  have h := (hybrid_write_through_repopulate hybridOpts 2000 3000 "k" "w" none
    hybridState ⟨"v", 1000, 10, 2⟩ rfl).2 rfl rfl (by decide)
  exact ⟨h.1, h.2.1, h.2.2 (by decide)⟩

end ClaimTheorems

section SizeInvariant

/-- Well-formedness invariant tying a state to the clock value `clock` of
the last executed operation and the size `last` of the most recently added
memory entry: keys are unique, timestamps are not in the future, sizes are
nonnegative, the counter's slack over the stored sum lies in
`[0, maxSizeBytes]`, and the counter is bounded by `maxSizeBytes + last`. -/
structure MemInv (opts : CacheOptions) (s : CacheState) (clock last : Int) : Prop where
  nodup : keysNodup s.memoryCache
  ts_le : ∀ kv ∈ s.memoryCache, kv.2.timestamp ≤ clock
  sz_nonneg : ∀ kv ∈ s.memoryCache, 0 ≤ kv.2.size
  phant_nonneg : 0 ≤ s.currentMemorySize - memSum s.memoryCache
  phant_le : s.currentMemorySize - memSum s.memoryCache ≤ maxSizeBytes opts
  size_le : s.currentMemorySize ≤ maxSizeBytes opts + last
  last_nonneg : 0 ≤ last

theorem maxSizeBytes_nonneg (opts : CacheOptions) : 0 ≤ maxSizeBytes opts := by
  unfold maxSizeBytes
  positivity

theorem memInv_initial (opts : CacheOptions) (c : Int) :
    MemInv opts initialState c 0 := by
  have := maxSizeBytes_nonneg opts
  refine ⟨?_, ?_, ?_, ?_, ?_, ?_, le_refl 0⟩
  · exact List.nodup_nil
  · intro kv hkv; cases hkv
  · intro kv hkv; cases hkv
  · show (0 : Int) ≤ 0 - memSum []
    simp
  · show (0 : Int) - memSum [] ≤ maxSizeBytes opts
    simpa using this
  · show (0 : Int) ≤ maxSizeBytes opts + 0
    omega

/-- The invariant only involves the memory map and the counter, so it
transfers to any state sharing them, with a weaker clock. -/
theorem memInv_transfer (opts : CacheOptions) (s s' : CacheState)
    (clock clock' last : Int) (hinv : MemInv opts s clock last)
    (hm : s'.memoryCache = s.memoryCache)
    (hc : s'.currentMemorySize = s.currentMemorySize)
    (hclock : clock ≤ clock') : MemInv opts s' clock' last := by
  refine ⟨?_, ?_, ?_, ?_, ?_, ?_, hinv.last_nonneg⟩
  · rw [hm]; exact hinv.nodup
  · intro kv hkv
    rw [hm] at hkv
    exact le_trans (hinv.ts_le kv hkv) hclock
  · intro kv hkv
    rw [hm] at hkv
    exact hinv.sz_nonneg kv hkv
  · rw [hm, hc]; exact hinv.phant_nonneg
  · rw [hm, hc]; exact hinv.phant_le
  · rw [hc]; exact hinv.size_le

/-- Deleting a present entry and subtracting its size preserves the
invariant. -/
theorem memInv_delete_entry (opts : CacheOptions) (s : CacheState)
    (clock last : Int) (key : String) (e : CacheEntry)
    (hinv : MemInv opts s clock last)
    (hget : mapGet s.memoryCache key = some e) :
    MemInv opts
      ⟨mapDelete s.memoryCache key, s.diskCache, s.currentMemorySize - e.size⟩
      clock last := by
  have hmem := mapGet_mem _ _ _ hget
  have hsum := memSum_mapDelete s.memoryCache key e hinv.nodup hmem
  have he0 : 0 ≤ e.size := hinv.sz_nonneg _ hmem
  have h1 := hinv.phant_nonneg
  have h2 := hinv.phant_le
  have h3 := hinv.size_le
  refine ⟨keysNodup_mapDelete _ _ hinv.nodup,
    fun kv hkv => hinv.ts_le kv (mem_mapDelete _ _ _ hkv),
    fun kv hkv => hinv.sz_nonneg kv (mem_mapDelete _ _ _ hkv), ?_, ?_, ?_,
    hinv.last_nonneg⟩
  · show 0 ≤ (s.currentMemorySize - e.size) - memSum (mapDelete s.memoryCache key)
    omega
  · show (s.currentMemorySize - e.size) - memSum (mapDelete s.memoryCache key) ≤
      maxSizeBytes opts
    omega
  · show s.currentMemorySize - e.size ≤ maxSizeBytes opts + last
    omega

/-- `setMemoryEntry` re-establishes the invariant at the new clock, with the
new entry's size as the last-added size. -/
theorem memInv_setMemoryEntry (opts : CacheOptions) (now : Int)
    (key data : String) (ttl : Int) (s : CacheState) (clock last : Int)
    (hinv : MemInv opts s clock last) (hclock : clock < now) :
    MemInv opts (setMemoryEntry opts now key data ttl s) now
      (calculateSize data) := by
  have hts : ∀ kv ∈ s.memoryCache, kv.2.timestamp < now :=
    fun kv hkv => lt_of_le_of_lt (hinv.ts_le kv hkv) hclock
  obtain ⟨hnd, hmem, hph0, hph1, hsize, _, _⟩ :=
    setMemoryEntry_spec opts now key data ttl s hinv.nodup hts hinv.sz_nonneg
      hinv.phant_nonneg hinv.phant_le
  refine ⟨hnd, fun kv hkv => (hmem kv hkv).1, fun kv hkv => (hmem kv hkv).2,
    hph0, hph1, hsize, ?_⟩
  unfold calculateSize
  positivity

/-- One public operation at a strictly later time preserves the invariant,
with the last-added size updated by the operation's memory addition. -/
theorem memInv_step (opts : CacheOptions) (now : Int) (op : CacheOp)
    (s : CacheState) (clock last : Int)
    (hinv : MemInv opts s clock last) (hclock : clock < now) :
    MemInv opts (step opts now op s) now
      ((memAddSize opts now op s).getD last) := by
  have hweak : ∀ s' : CacheState, s'.memoryCache = s.memoryCache →
      s'.currentMemorySize = s.currentMemorySize → MemInv opts s' now last :=
    fun s' hm hc => memInv_transfer opts s s' clock now last hinv hm hc (le_of_lt hclock)
  cases op with
  | setOp k d t =>
    by_cases hd : opts.strategy = .disk
    · have hstep : step opts now (.setOp k d t) s =
          setDiskEntry now k d (t.getD opts.ttl) s := by
        simp [step, set, hd]
      have hadd : memAddSize opts now (.setOp k d t) s = none := by
        simp [memAddSize, hd]
      simp only [hstep, hadd, Option.getD_none, Option.getD_some]
      exact hweak _ rfl rfl
    · have hmeminv := memInv_setMemoryEntry opts now k d (t.getD opts.ttl) s
        clock last hinv hclock
      have hadd : memAddSize opts now (.setOp k d t) s =
          some (calculateSize d) := by
        simp [memAddSize, hd]
      by_cases hm : opts.strategy = .memory
      · have hstep : step opts now (.setOp k d t) s =
            setMemoryEntry opts now k d (t.getD opts.ttl) s := by
          simp [step, set, hd, hm]
        simp only [hstep, hadd, Option.getD_none, Option.getD_some]
        exact hmeminv
      · have hstep : step opts now (.setOp k d t) s =
            setDiskEntry now k d (t.getD opts.ttl)
              (setMemoryEntry opts now k d (t.getD opts.ttl) s) := by
          simp [step, set, hd, hm]
        simp only [hstep, hadd, Option.getD_none, Option.getD_some]
        exact memInv_transfer opts _ _ now now (calculateSize d) hmeminv rfl rfl
          (le_refl now)
  | getOp k =>
    cases hstrat : opts.strategy with
    | memory =>
      have hadd : memAddSize opts now (.getOp k) s = none := by
        simp [memAddSize, hstrat]
      simp only [hadd, Option.getD_none, Option.getD_some]
      rcases hg : mapGet s.memoryCache k with _ | e
      · have hstep : step opts now (.getOp k) s = s := by
          simp [step, get, hstrat, hg]
        rw [hstep]
        exact hweak s rfl rfl
      · by_cases hf : now - e.timestamp < e.ttl * 1000
        · have hstep : step opts now (.getOp k) s = s := by
            simp [step, get, hstrat, hg, hf]
          rw [hstep]
          exact hweak s rfl rfl
        · have hstep : step opts now (.getOp k) s =
              ⟨mapDelete s.memoryCache k, s.diskCache,
                s.currentMemorySize - e.size⟩ := by
            simp [step, get, hstrat, hg, hf]
          rw [hstep]
          exact memInv_transfer opts _ _ clock now last
            (memInv_delete_entry opts s clock last k e hinv hg) rfl rfl
            (le_of_lt hclock)
    | disk =>
      have hadd : memAddSize opts now (.getOp k) s = none := by
        simp [memAddSize, hstrat]
      simp only [hadd, Option.getD_none, Option.getD_some]
      have hstep : step opts now (.getOp k) s = s := by
        rcases hdg : mapGet s.diskCache k with _ | de
        · simp [step, get, hstrat, hdg]
        · by_cases hdf : now - de.timestamp < de.ttl * 1000
          · simp [step, get, hstrat, hdg, hdf]
          · simp [step, get, hstrat, hdg, hdf]
      rw [hstep]
      exact hweak s rfl rfl
    | hybrid =>
      rcases hg : mapGet s.memoryCache k with _ | e
      · rcases hdg : mapGet s.diskCache k with _ | de
        · have hadd : memAddSize opts now (.getOp k) s = none := by
            simp [memAddSize, hstrat, hg, hdg]
          have hstep : step opts now (.getOp k) s = s := by
            simp [step, get, hstrat, hg, hdg]
          simp only [hstep, hadd, Option.getD_none, Option.getD_some]
          exact hweak s rfl rfl
        · by_cases hdf : now - de.timestamp < de.ttl * 1000
          · have hadd : memAddSize opts now (.getOp k) s =
                some (calculateSize de.data) := by
              simp [memAddSize, hstrat, hg, hdg, hdf]
            have hstep : step opts now (.getOp k) s =
                setMemoryEntry opts now k de.data de.ttl s := by
              simp [step, get, hstrat, hg, hdg, hdf]
            simp only [hstep, hadd, Option.getD_none, Option.getD_some]
            exact memInv_setMemoryEntry opts now k de.data de.ttl s clock last
              hinv hclock
          · have hadd : memAddSize opts now (.getOp k) s = none := by
              simp [memAddSize, hstrat, hg, hdg, hdf]
            have hstep : step opts now (.getOp k) s = s := by
              simp [step, get, hstrat, hg, hdg, hdf]
            simp only [hstep, hadd, Option.getD_none, Option.getD_some]
            exact hweak s rfl rfl
      · by_cases hf : now - e.timestamp < e.ttl * 1000
        · have hadd : memAddSize opts now (.getOp k) s = none := by
            simp [memAddSize, hstrat, hg, hf]
          have hstep : step opts now (.getOp k) s = s := by
            simp [step, get, hstrat, hg, hf]
          simp only [hstep, hadd, Option.getD_none, Option.getD_some]
          exact hweak s rfl rfl
        · have hdel := memInv_delete_entry opts s clock last k e hinv hg
          rcases hdg : mapGet s.diskCache k with _ | de
          · have hadd : memAddSize opts now (.getOp k) s = none := by
              simp [memAddSize, hstrat, hg, hf, hdg]
            have hstep : step opts now (.getOp k) s =
                ⟨mapDelete s.memoryCache k, s.diskCache,
                  s.currentMemorySize - e.size⟩ := by
              simp [step, get, hstrat, hg, hf, hdg]
            simp only [hstep, hadd, Option.getD_none, Option.getD_some]
            exact memInv_transfer opts _ _ clock now last hdel rfl rfl
              (le_of_lt hclock)
          · by_cases hdf : now - de.timestamp < de.ttl * 1000
            · have hadd : memAddSize opts now (.getOp k) s =
                  some (calculateSize de.data) := by
                simp [memAddSize, hstrat, hg, hf, hdg, hdf]
              have hstep : step opts now (.getOp k) s =
                  setMemoryEntry opts now k de.data de.ttl
                    ⟨mapDelete s.memoryCache k, s.diskCache,
                      s.currentMemorySize - e.size⟩ := by
                simp [step, get, hstrat, hg, hf, hdg, hdf]
              simp only [hstep, hadd, Option.getD_none, Option.getD_some]
              exact memInv_setMemoryEntry opts now k de.data de.ttl _ clock last
                hdel hclock
            · have hadd : memAddSize opts now (.getOp k) s = none := by
                simp [memAddSize, hstrat, hg, hf, hdg, hdf]
              have hstep : step opts now (.getOp k) s =
                  ⟨mapDelete s.memoryCache k, s.diskCache,
                    s.currentMemorySize - e.size⟩ := by
                simp [step, get, hstrat, hg, hf, hdg, hdf]
              simp only [hstep, hadd, Option.getD_none, Option.getD_some]
              exact memInv_transfer opts _ _ clock now last hdel rfl rfl
                (le_of_lt hclock)
  | deleteOp k =>
    have hadd : memAddSize opts now (.deleteOp k) s = none := rfl
    simp only [hadd, Option.getD_none, Option.getD_some]
    rcases hg : mapGet s.memoryCache k with _ | e
    · by_cases hm : opts.strategy = .memory
      · have hstep : step opts now (.deleteOp k) s = s := by
          simp [step, delete, hg, hm]
        rw [hstep]
        exact hweak s rfl rfl
      · have hstep : step opts now (.deleteOp k) s =
            ⟨s.memoryCache, mapDelete s.diskCache k, s.currentMemorySize⟩ := by
          simp [step, delete, hg, hm]
        rw [hstep]
        exact hweak _ rfl rfl
    · have hdel := memInv_delete_entry opts s clock last k e hinv hg
      by_cases hm : opts.strategy = .memory
      · have hstep : step opts now (.deleteOp k) s =
            ⟨mapDelete s.memoryCache k, s.diskCache,
              s.currentMemorySize - e.size⟩ := by
          simp [step, delete, hg, hm]
        rw [hstep]
        exact memInv_transfer opts _ _ clock now last hdel rfl rfl
          (le_of_lt hclock)
      · have hstep : step opts now (.deleteOp k) s =
            ⟨mapDelete s.memoryCache k, mapDelete s.diskCache k,
              s.currentMemorySize - e.size⟩ := by
          simp [step, delete, hg, hm]
        rw [hstep]
        exact memInv_transfer opts _ _ clock now last hdel rfl rfl
          (le_of_lt hclock)
  | clearOp =>
    have hadd : memAddSize opts now .clearOp s = none := rfl
    simp only [hadd, Option.getD_none, Option.getD_some]
    have hmax := maxSizeBytes_nonneg opts
    have hlast := hinv.last_nonneg
    have hfields : (step opts now .clearOp s).memoryCache = [] ∧
        (step opts now .clearOp s).currentMemorySize = 0 := by
      by_cases hm : opts.strategy = .memory
      · constructor <;> simp [step, clear, hm]
      · constructor <;> simp [step, clear, hm]
    refine ⟨?_, ?_, ?_, ?_, ?_, ?_, hlast⟩
    · rw [show keysNodup (step opts now .clearOp s).memoryCache =
        ((step opts now .clearOp s).memoryCache.map (fun kv => kv.1)).Nodup from rfl,
        hfields.1]
      exact List.nodup_nil
    · intro kv hkv
      rw [hfields.1] at hkv
      cases hkv
    · intro kv hkv
      rw [hfields.1] at hkv
      cases hkv
    · rw [hfields.1, hfields.2]
      simp
    · rw [hfields.1, hfields.2]
      simpa using hmax
    · rw [hfields.2]
      omega

/-- Running a sequence of operations with strictly increasing clock values
preserves the invariant, with `last` tracked by `lastAddedSize`. -/
theorem memInv_runOps (opts : CacheOptions) :
    ∀ (ops : List (Int × CacheOp)) (s : CacheState) (clock last : Int),
      MemInv opts s clock last →
      List.Chain (fun a b => a < b) clock (ops.map Prod.fst) →
      ∃ c, MemInv opts (runOps opts ops s) c (lastAddedSize opts ops s last) := by
  intro ops
  induction ops with
  | nil =>
    intro s clock last hinv _
    exact ⟨clock, hinv⟩
  | cons p rest ih =>
    intro s clock last hinv hchain
    rcases p with ⟨now, op⟩
    rw [List.map_cons] at hchain
    cases hchain with
    | cons hlt htail =>
      exact ih (step opts now op s) now ((memAddSize opts now op s).getD last)
        (memInv_step opts now op s clock last hinv hlt) htail

/-- C7: over any sequence of `set`/`get`/`delete`/`clear` operations executed
at strictly increasing `Date.now()` values, the reported cumulative size
never exceeds the configured maximum plus the size of the single most
recently added memory entry. -/
theorem memorySize_bounded (opts : CacheOptions) (ops : List (Int × CacheOp))
    (hchain : List.Chain' (fun a b => a < b) (ops.map Prod.fst)) :
    (getStats opts (runOps opts ops initialState)).memorySize ≤
      maxSizeBytes opts + lastAddedSize opts ops initialState 0 := by
  cases ops with
  | nil =>
    have := maxSizeBytes_nonneg opts
    show (0 : Int) ≤ maxSizeBytes opts + 0
    omega
  | cons p rest =>
    rw [List.map_cons] at hchain
    have hchainC : List.Chain (fun a b => a < b) p.1 (rest.map Prod.fst) := hchain
    have hchain2 : List.Chain (fun a b => a < b) (p.1 - 1)
        ((p :: rest).map Prod.fst) := by
      rw [List.map_cons]
      exact List.Chain.cons (by omega) hchainC
    obtain ⟨c, hinv⟩ := memInv_runOps opts (p :: rest) initialState (p.1 - 1) 0
      (memInv_initial opts (p.1 - 1)) hchain2
    exact hinv.size_le

theorem memorySize_bounded_witness :
    (getStats memOpts (runOps memOpts
        [(1, .setOp "k" "aa" none), (2, .setOp "k" "bbbb" none)]
        initialState)).memorySize ≤
      maxSizeBytes memOpts +
        lastAddedSize memOpts [(1, .setOp "k" "aa" none), (2, .setOp "k" "bbbb" none)]
          initialState 0 :=
  memorySize_bounded memOpts
    [(1, .setOp "k" "aa" none), (2, .setOp "k" "bbbb" none)]
    (List.chain'_cons.mpr ⟨by norm_num, List.chain'_singleton 2⟩)

end SizeInvariant

end CacheService
